import Mathlib

/-!
Verification of the dependency-graph accumulation, attribution and rendering
engine of the depaware program (src/depaware/depaware.go), as a shallow
embedding: Go strings become Lean `String`s (Go compares strings bytewise,
which on UTF-8 text coincides with the character-wise comparison used here),
Go maps become lookup functions updated pointwise, Go slices become `List`s,
and `sort.Slice`/`sort.Strings` become sorting with respect to the comparator
translated from the source (the comparator is a strict total order, so any
correct sorting algorithm yields the same list; we use insertion sort).
-/

/-! ## String comparison (Go `s < t` on strings: lexicographic) -/

/-- Lexicographic strict order on character lists: the order Go uses to
compare strings (`d1 < d2`, `sort.Strings`). -/
def charListLt : List Char → List Char → Bool
  | [], [] => false
  | [], _ :: _ => true
  | _ :: _, [] => false
  | a :: as, b :: bs => if a < b then true else if b < a then false else charListLt as bs

/-- Go string comparison `s < t`. -/
def strLt (s t : String) : Bool := charListLt s.toList t.toList

theorem charListLt_irrefl : ∀ l : List Char, charListLt l l = false
  | [] => rfl
  | a :: as => by simp [charListLt, lt_irrefl a, charListLt_irrefl as]

theorem charListLt_asymm : ∀ l1 l2 : List Char,
    charListLt l1 l2 = true → charListLt l2 l1 = false
  | [], [] => by simp [charListLt]
  | [], _ :: _ => by simp [charListLt]
  | _ :: _, [] => by simp [charListLt]
  | a :: as, b :: bs => by
    by_cases hab : a < b
    · have hba : ¬ b < a := lt_asymm hab
      simp [charListLt, hab, hba]
    · by_cases hba : b < a
      · simp [charListLt, hab, hba]
      · simp only [charListLt, if_neg hab, if_neg hba]
        exact charListLt_asymm as bs

theorem charListLt_trans : ∀ l1 l2 l3 : List Char,
    charListLt l1 l2 = true → charListLt l2 l3 = true → charListLt l1 l3 = true
  | _, [], [] => by simp [charListLt]
  | _, _ :: _, [] => by simp [charListLt]
  | [], [], _ :: _ => by simp [charListLt]
  | [], _ :: _, _ :: _ => by simp [charListLt]
  | _ :: _, [], _ :: _ => by simp [charListLt]
  | a :: as, b :: bs, c :: cs => by
    intro h1 h2
    rcases lt_trichotomy a b with hab | hab | hab
    · rcases lt_trichotomy b c with hbc | hbc | hbc
      · simp [charListLt, lt_trans hab hbc]
      · subst hbc; simp [charListLt, hab]
      · -- b > c: h2 forces a contradiction
        simp [charListLt, lt_asymm hbc, hbc] at h2
    · subst hab
      rcases lt_trichotomy a c with hac | hac | hac
      · simp [charListLt, hac]
      · subst hac
        simp only [charListLt, if_neg (lt_irrefl a)] at h1 h2 ⊢
        exact charListLt_trans as bs cs h1 h2
      · simp [charListLt, lt_asymm hac, hac] at h2
    · simp [charListLt, lt_asymm hab, hab] at h1

theorem charListLt_eq_of_not : ∀ l1 l2 : List Char,
    charListLt l1 l2 = false → charListLt l2 l1 = false → l1 = l2
  | [], [] => by simp
  | [], _ :: _ => by simp [charListLt]
  | _ :: _, [] => by simp [charListLt]
  | a :: as, b :: bs => by
    intro h1 h2
    rcases lt_trichotomy a b with hab | hab | hab
    · simp [charListLt, hab] at h1
    · subst hab
      simp only [charListLt, if_neg (lt_irrefl a)] at h1 h2
      rw [charListLt_eq_of_not as bs h1 h2]
    · simp [charListLt, hab] at h2

theorem strEq_of_toList (s t : String) (h : s.toList = t.toList) : s = t := by
  cases s; cases t
  simp only [String.toList] at h
  rw [h]

theorem strLt_irrefl (s : String) : strLt s s = false := charListLt_irrefl _

theorem strLt_asymm {s t : String} (h : strLt s t = true) : strLt t s = false :=
  charListLt_asymm _ _ h

theorem strLt_trans {s t u : String} (h1 : strLt s t = true) (h2 : strLt t u = true) :
    strLt s u = true := charListLt_trans _ _ _ h1 h2

theorem strLt_eq_of_not {s t : String} (h1 : strLt s t = false) (h2 : strLt t s = false) :
    s = t := strEq_of_toList s t (charListLt_eq_of_not _ _ h1 h2)

/-- The non-strict order corresponding to `strLt`; `sort.Strings` sorts into a
list nondecreasing with respect to it. -/
def strLE (a b : String) : Prop := strLt b a = false

instance : DecidableRel strLE := fun a b => inferInstanceAs (Decidable (strLt b a = false))

instance : IsTotal String strLE :=
  ⟨fun a b => by
    rcases h : strLt b a with _ | _
    · exact Or.inl h
    · exact Or.inr (strLt_asymm h)⟩

theorem strLt_false_elim {s t : String} (h : strLt s t = false) :
    s = t ∨ strLt t s = true := by
  rcases h2 : strLt t s with _ | _
  · exact Or.inl (strLt_eq_of_not h h2)
  · exact Or.inr rfl


instance : IsTrans String strLE :=
  ⟨fun a b c h1 h2 => by
    unfold strLE at h1 h2 ⊢
    rcases strLt_false_elim h1 with hba | hab
    · rcases strLt_false_elim h2 with hcb | hbc
      · rw [hcb, hba, strLt_irrefl]
      · rw [hba] at hbc
        exact strLt_asymm hbc
    · rcases strLt_false_elim h2 with hcb | hbc
      · rw [hcb]
        exact strLt_asymm hab
      · exact strLt_asymm (strLt_trans hab hbc)⟩

instance : IsAntisymm String strLE :=
  ⟨fun _ _ h1 h2 => strLt_eq_of_not h2 h1⟩

/-! ## Substring containment (Go `strings.Contains`) -/

/-- `isPrefixOfCL p t`: `p` is an initial segment of `t`. -/
def isPrefixOfCL : List Char → List Char → Bool
  | [], _ => true
  | _ :: _, [] => false
  | a :: as, b :: bs => if a = b then isPrefixOfCL as bs else false

/-- Go `strings.Contains s pat`: `pat` occurs as a contiguous substring of `s`. -/
def strContains (s pat : String) : Bool :=
  (List.range (s.toList.length + 1)).any (fun i => isPrefixOfCL pat.toList (s.toList.drop i))

theorem isPrefixOfCL_length : ∀ p t : List Char,
    isPrefixOfCL p t = true → p.length ≤ t.length
  | [], _ => by simp
  | _ :: _, [] => by simp [isPrefixOfCL]
  | a :: as, b :: bs => by
    simp only [isPrefixOfCL, List.length_cons]
    split
    · intro h
      have := isPrefixOfCL_length as bs h
      omega
    · intro h; cases h

theorem isPrefixOfCL_append : ∀ p q t : List Char,
    isPrefixOfCL (p ++ q) t = true → isPrefixOfCL q (t.drop p.length) = true
  | [], q, t => by simp
  | a :: p, q, [] => by simp [isPrefixOfCL]
  | a :: p, q, b :: t => by
    simp only [List.cons_append, isPrefixOfCL, List.length_cons, List.drop_succ_cons]
    split
    · exact isPrefixOfCL_append p q t
    · intro h; cases h

theorem isPrefixOfCL_head : ∀ (a : Char) (q t : List Char),
    isPrefixOfCL (a :: q) t = true → isPrefixOfCL [a] t = true
  | _, _, [] => by simp [isPrefixOfCL]
  | a, q, b :: t => by
    simp only [isPrefixOfCL]
    split
    · intro _; rfl
    · intro h; cases h

/-- A string containing `"golang.org/x/"` contains `"."`. -/
theorem strContains_dot_of_x (s : String) (h : strContains s "golang.org/x/" = true) :
    strContains s "." = true := by
  unfold strContains at h ⊢
  simp only [List.any_eq_true, List.mem_range] at h ⊢
  obtain ⟨i, hi, hp⟩ := h
  have hlen := isPrefixOfCL_length _ _ hp
  have hsplit : ("golang.org/x/".toList : List Char) =
      "golang".toList ++ ('.' :: "org/x/".toList) := by decide
  rw [hsplit] at hp
  have h2 := isPrefixOfCL_append _ _ _ hp
  have h3 := isPrefixOfCL_head _ _ _ h2
  refine ⟨i + 6, ?_, ?_⟩
  · rw [List.length_drop] at hlen
    have : "golang.org/x/".toList.length = 13 := by decide
    omega
  · have hd : ((s.toList.drop i).drop "golang".toList.length) = s.toList.drop (i + 6) := by
      rw [List.drop_drop]
      norm_num
    rwa [hd] at h3

/-! ## The dependency ordering (src/depaware/depaware.go lines 105-114) -/

/-- The `sort.Slice` comparator of `process`:
dot-containing identities compare before bare ones (`return p1`), identities
containing `"golang.org/x/"` compare after the other dot-containing ones
(`return x2`), remaining ties lexicographic. -/
def depLess (d1 d2 : String) : Bool :=
  let p1 := strContains d1 "."
  let p2 := strContains d2 "."
  if p1 ≠ p2 then p1
  else
    let x1 := strContains d1 "golang.org/x/"
    let x2 := strContains d2 "golang.org/x/"
    if x1 ≠ x2 then x2
    else strLt d1 d2

/-- Rank of an identity in the comparator's three groups: dot-containing
outside golang.org/x/ first, then golang.org/x/, then bare identities. -/
def depRank (s : String) : Nat :=
  if strContains s "." then (if strContains s "golang.org/x/" then 1 else 0) else 2

/-- A string with no `"."` does not contain `"golang.org/x/"`. -/
theorem strContains_x_eq_false (s : String) (h : strContains s "." = false) :
    strContains s "golang.org/x/" = false := by
  rcases hx : strContains s "golang.org/x/" with _ | _
  · rfl
  · exact absurd (strContains_dot_of_x s hx) (by simp [h])

theorem depLess_iff (a b : String) :
    depLess a b = true ↔
      depRank a < depRank b ∨ (depRank a = depRank b ∧ strLt a b = true) := by
  unfold depLess depRank
  rcases hpa : strContains a "." with _ | _ <;> rcases hpb : strContains b "." with _ | _
  · rw [strContains_x_eq_false a hpa, strContains_x_eq_false b hpb]
    simp [hpa, hpb]
  · rw [strContains_x_eq_false a hpa]
    rcases hxb : strContains b "golang.org/x/" with _ | _ <;> simp [hpa, hpb, hxb]
  · rw [strContains_x_eq_false b hpb]
    rcases hxa : strContains a "golang.org/x/" with _ | _ <;> simp [hpa, hpb, hxa]
  · rcases hxa : strContains a "golang.org/x/" with _ | _ <;>
      rcases hxb : strContains b "golang.org/x/" with _ | _ <;>
      simp [hpa, hpb, hxa, hxb]

theorem depLess_irrefl (a : String) : depLess a a = false := by
  rcases h : depLess a a with _ | _
  · rfl
  · rw [depLess_iff] at h
    rcases h with h | ⟨_, hl⟩
    · omega
    · rw [strLt_irrefl] at hl
      cases hl

theorem depLess_asymm {a b : String} (h : depLess a b = true) : depLess b a = false := by
  rcases h2 : depLess b a with _ | _
  · rfl
  · rw [depLess_iff] at h h2
    rcases h with h | ⟨he, hl⟩ <;> rcases h2 with h2 | ⟨he2, hl2⟩
    · omega
    · omega
    · omega
    · rw [strLt_asymm hl] at hl2
      cases hl2

theorem depLess_trans {a b c : String} (h1 : depLess a b = true) (h2 : depLess b c = true) :
    depLess a c = true := by
  rw [depLess_iff] at h1 h2 ⊢
  rcases h1 with h1 | ⟨he1, hl1⟩ <;> rcases h2 with h2 | ⟨he2, hl2⟩
  · exact Or.inl (by omega)
  · exact Or.inl (by omega)
  · exact Or.inl (by omega)
  · exact Or.inr ⟨by omega, strLt_trans hl1 hl2⟩

theorem depLess_eq_of_not {a b : String} (h1 : depLess a b = false)
    (h2 : depLess b a = false) : a = b := by
  have n1 : ¬ (depRank a < depRank b ∨ (depRank a = depRank b ∧ strLt a b = true)) := by
    rw [← depLess_iff, h1]; simp
  have n2 : ¬ (depRank b < depRank a ∨ (depRank b = depRank a ∧ strLt b a = true)) := by
    rw [← depLess_iff, h2]; simp
  push_neg at n1 n2
  have he : depRank a = depRank b := by omega
  have l1 : strLt a b = false := by
    rcases hl : strLt a b with _ | _
    · rfl
    · exact absurd hl (by simpa using n1.2 he)
  have l2 : strLt b a = false := by
    rcases hl : strLt b a with _ | _
    · rfl
    · exact absurd hl (by simpa using n2.2 he.symm)
  exact strLt_eq_of_not l1 l2

/-- The non-strict order corresponding to the `sort.Slice` comparator: the
rendered dependency list is nondecreasing with respect to it. -/
def depLE (a b : String) : Prop := depLess b a = false

instance : DecidableRel depLE := fun a b => inferInstanceAs (Decidable (depLess b a = false))

theorem depLess_false_elim {a b : String} (h : depLess a b = false) :
    a = b ∨ depLess b a = true := by
  rcases h2 : depLess b a with _ | _
  · exact Or.inl (depLess_eq_of_not h h2)
  · exact Or.inr rfl

instance : IsTotal String depLE :=
  ⟨fun a b => by
    rcases h : depLess b a with _ | _
    · exact Or.inl h
    · exact Or.inr (depLess_asymm h)⟩

instance : IsTrans String depLE :=
  ⟨fun a b c h1 h2 => by
    unfold depLE at h1 h2 ⊢
    rcases depLess_false_elim h1 with hba | hab
    · rcases depLess_false_elim h2 with hcb | hbc
      · rw [hcb, hba]
        exact depLess_irrefl a
      · rw [hba] at hbc
        exact depLess_asymm hbc
    · rcases depLess_false_elim h2 with hcb | hbc
      · rw [hcb]
        exact depLess_asymm hab
      · exact depLess_asymm (depLess_trans hab hbc)⟩

instance : IsAntisymm String depLE :=
  ⟨fun _ _ h1 h2 => depLess_eq_of_not h2 h1⟩

/-! ## The two sorts the program performs -/

/-- `sort.Slice(d.Deps, ...)` with the comparator above (process, line 105).
The comparator is a strict total order, so Go's (unstable) sort produces
exactly this list. -/
def sortDeps (l : List String) : List String := List.insertionSort depLE l

/-- `sort.Strings(from)` in `deps.Why` (line 213). -/
def sortStrings (l : List String) : List String := List.insertionSort strLE l

theorem sortDeps_sorted (l : List String) : List.Sorted depLE (sortDeps l) :=
  List.sorted_insertionSort depLE l

theorem sortDeps_perm (l : List String) : List.Perm (sortDeps l) l :=
  List.perm_insertionSort depLE l

theorem sortDeps_congr {l1 l2 : List String} (h : List.Perm l1 l2) : sortDeps l1 = sortDeps l2 :=
  List.eq_of_perm_of_sorted ((sortDeps_perm l1).trans (h.trans (sortDeps_perm l2).symm))
    (sortDeps_sorted l1) (sortDeps_sorted l2)

theorem sortStrings_sorted (l : List String) : List.Sorted strLE (sortStrings l) :=
  List.sorted_insertionSort strLE l

theorem sortStrings_perm (l : List String) : List.Perm (sortStrings l) l :=
  List.perm_insertionSort strLE l

theorem sortStrings_congr {l1 l2 : List String} (h : List.Perm l1 l2) :
    sortStrings l1 = sortStrings l2 :=
  List.eq_of_perm_of_sorted ((sortStrings_perm l1).trans (h.trans (sortStrings_perm l2).symm))
    (sortStrings_sorted l1) (sortStrings_sorted l2)

/-! ## The program's data model (src/depaware/depaware.go lines 181-275) -/

/-- `imports.VendorlessPath` (external library golang.org/x/tools/imports,
called by AddEdge and AddDep): the de-vendored version of an import path.
If `"/vendor/"` occurs, everything after its last occurrence; else if the
path starts with `"vendor/"`, the rest; else the path unchanged. -/
def vendorlessPath (ipath : String) : String :=
  let l := ipath.toList
  let pat := "/vendor/".toList
  match ((List.range (l.length + 1)).filter (fun i => isPrefixOfCL pat (l.drop i))).getLast? with
  | some i => String.mk (l.drop (i + pat.length))
  | none =>
      if isPrefixOfCL "vendor/".toList l then String.mk (l.drop "vendor/".toList.length)
      else ipath

/-- The helper `stringsContains` (lines 256-263): linear membership scan. -/
def stringsContains : List String → String → Bool
  | [], _ => false
  | v :: ss, s => if v = s then true else stringsContains ss s

theorem stringsContains_iff (ss : List String) (s : String) :
    stringsContains ss s = true ↔ s ∈ ss := by
  induction ss with
  | nil => simp [stringsContains]
  | cons v ss ih =>
    by_cases h : v = s
    · simp [stringsContains, h]
    · simp only [stringsContains, if_neg h, ih, List.mem_cons]
      exact ⟨Or.inr, fun hm => hm.elim (fun he => absurd he.symm h) id⟩

/-- `isGoPackage` (lines 272-275): identities with no `"."`, or containing
`"golang.org/x"` (note: without the trailing slash used by the sort). -/
def isGoPackage (pkg : String) : Bool :=
  !(strContains pkg ".") || strContains pkg "golang.org/x"

/-- `isInternalPackage` (lines 265-270). -/
def isInternalPackage (pkg : String) : Bool :=
  isPrefixOfCL "internal/".toList pkg.toList ||
  isPrefixOfCL "runtime/internal/".toList pkg.toList ||
  pkg = "runtime" || pkg = "runtime/cgo" || pkg = "unsafe" ||
  (strContains pkg "/internal/" && isGoPackage pkg)

/-- The accumulator state (`type deps`, lines 186-193). The Go maps are
modelled as lookup functions (the program only ever indexes them, never
iterates them), the slices as lists. `DepOnOS` is the map keyed by
`pkgGOOS{pkg, goos}`, curried. -/
structure deps where
  Deps : List String := []
  DepOnOS : String → String → Bool := fun _ _ => false
  DepTo : String → List String := fun _ => []
  UsesUnsafe : String → Bool := fun _ => false
  UsesCGO : String → Bool := fun _ => false

/-- The all-empty accumulator (`var d deps` in `process`). -/
def emptyDeps : deps := {}

/-- `deps.AddEdge` (lines 223-240); the parameters are the source's `from`
and `to` (both reserved words here). -/
def deps.AddEdge (d : deps) (frm tgt : String) : deps :=
  let frm := vendorlessPath frm
  let tgt := vendorlessPath tgt
  let d1 : deps :=
    if stringsContains (d.DepTo tgt) frm then d
    else { d with DepTo := fun k => if k = tgt then d.DepTo tgt ++ [frm] else d.DepTo k }
  let d2 : deps :=
    if tgt = "unsafe" then
      { d1 with UsesUnsafe := fun k => if k = frm then true else d1.UsesUnsafe k }
    else d1
  if tgt = "runtime/cgo" then
    { d2 with UsesCGO := fun k => if k = frm then true else d2.UsesCGO k }
  else d2

/-- `deps.AddDep` (lines 242-254). `internal` is the `-internal` flag. -/
def deps.AddDep (internal : Bool) (d : deps) (pkg goos : String) : deps :=
  let pkg := vendorlessPath pkg
  if !internal && isInternalPackage pkg then d
  else
    let d1 : deps :=
      if !stringsContains d.Deps pkg then { d with Deps := d.Deps ++ [pkg] } else d
    { d1 with DepOnOS := fun p g => if p = pkg ∧ g = goos then true else d1.DepOnOS p g }

/-- Go map lookup with the zero-value default `""` (for `preferredWhy[pkg]`);
the map is an association list whose most recent binding stands first. -/
def mapLookup (m : List (String × String)) (k : String) : String :=
  match m.find? (fun p => p.1 = k) with
  | some p => p.2
  | none => ""

/-- `deps.Why` (lines 195-221): the attribution resolver. -/
def deps.Why (d : deps) (pkg : String) (preferredWhy : List (String × String)) : String :=
  let froms := d.DepTo pkg
  if froms.length = 0 then ""
  else
    let pref := mapLookup preferredWhy pkg
    let why := if pref ≠ "" ∧ pref ∈ froms then pref else (sortStrings froms).headD ""
    let plus := if 1 < froms.length then "+" else ""
    "from " ++ why ++ plus

/-! ## Rendering (`process`, lines 125-148) -/

/-- Right-justify to a minimum width (`%3s`). -/
def padLeft (s : String) (w : Nat) : String :=
  String.mk (List.replicate (w - s.length) ' ') ++ s

/-- Left-justify to a minimum width (`%-60s`). -/
def padRight (s : String) (w : Nat) : String :=
  s ++ String.mk (List.replicate (w - s.length) ' ')

/-- The per-target marker field (`osBuf`, lines 138-146): one uppercase first
letter per GOOS the dependency was seen under, collapsed to empty when its
length equals the number of GOOS values. -/
def osMarkers (geese : List String) (d : deps) (pkg : String) : String :=
  let buf := String.mk
    ((geese.filter (fun goos => d.DepOnOS pkg goos)).map (fun goos => (goos.toList.headD ' ').toUpper))
  if buf.length = geese.length then "" else buf

/-- The `U` column (lines 130-134). -/
def unsafeIcon (d : deps) (pkg : String) : String :=
  if d.UsesUnsafe pkg && !isGoPackage pkg then "U" else " "

/-- The `C` column (lines 131-137). -/
def cgoIcon (d : deps) (pkg : String) : String :=
  if d.UsesCGO pkg && !isGoPackage pkg then "C" else " "

/-- One rendered line: `fmt.Fprintf(&buf, " %3s %s%s %-60s %s\n", ...)`
(line 147). -/
def renderLine (geese : List String) (preferredWhy : List (String × String))
    (d : deps) (pkg : String) : String :=
  " " ++ padLeft (osMarkers geese d pkg) 3 ++ " " ++ unsafeIcon d pkg ++ cgoIcon d pkg
    ++ " " ++ padRight pkg 60 ++ " " ++ d.Why pkg preferredWhy ++ "\n"

/-- The rendered snapshot (lines 105-148): header, blank line, then one line
per dependency in `sort.Slice` order. -/
def render (geese : List String) (pkg : String) (preferredWhy : List (String × String))
    (d : deps) : String :=
  pkg ++ " dependencies: (generated by github.com/tailscale/depaware)\n\n"
    ++ String.join ((sortDeps d.Deps).map (renderLine geese preferredWhy d))

/-! ## Parsing the previous snapshot (`parsePreferredWhy`, lines 302-324) -/

/-- `bytes.Fields`: split on whitespace runs, dropping empty fields. The
accumulator carries the characters of the current word in reverse (a
structural recursion, so that the kernel can evaluate concrete inputs). -/
def fieldsAux : List Char → List Char → List String
  | acc, [] => if acc.isEmpty then [] else [String.mk acc.reverse]
  | acc, c :: cs =>
    if c.isWhitespace then
      if acc.isEmpty then fieldsAux [] cs
      else String.mk acc.reverse :: fieldsAux [] cs
    else fieldsAux (c :: acc) cs

/-- `bytes.Fields` on a string. -/
def fields (s : String) : List String := fieldsAux [] s.toList

/-- Splitting into lines at each newline, as `bufio.Scanner` iterates them
(`bytes.Fields` later swallows any trailing carriage return as whitespace). -/
def splitLinesAux : List Char → List Char → List String
  | acc, [] => [String.mk acc.reverse]
  | acc, c :: cs =>
    if c = '\n' then String.mk acc.reverse :: splitLinesAux [] cs
    else splitLinesAux (c :: acc) cs

/-- The lines of a string. -/
def splitLines (s : String) : List String := splitLinesAux [] s.toList

/-- Index of the first `"from"` token (the `for i = range words` search,
lines 309-314). When absent this returns `words.length`; Go's loop leaves `i`
at the last index instead, and both values fail the `i >= len(words)-1`
guard, so the guarded behaviour is identical. -/
def idxOfFrom : List String → Nat
  | [] => 0
  | w :: ws => if w = "from" then 0 else idxOfFrom ws + 1

/-- `bytes.TrimRight(src, "+")`: strip trailing `'+'` characters. -/
def trimPlus (s : String) : String :=
  String.mk (s.toList.reverse.dropWhile (fun c => c = '+')).reverse

/-- The body of `parsePreferredWhy`'s scan loop for one line
(lines 306-321): `none` exactly when the guard `i < 1 || i >= len(words)-1`
skips the line. -/
def parseLine (line : String) : Option (String × String) :=
  let ws := fields line
  let i := idxOfFrom ws
  if i < 1 ∨ ws.length - 1 ≤ i then none
  else some (ws.getD (i - 1) "", trimPlus (ws.getD (i + 1) ""))

/-- `parsePreferredWhy` (lines 302-324): best-effort scan of the previous
snapshot, newest binding first (Go's `m[dep] = src` overwrites). -/
def parsePreferredWhy (contents : String) : List (String × String) :=
  (splitLines contents).foldl
    (fun m line =>
      match parseLine line with
      | some entry => entry :: m
      | none => m)
    []

/-! ## The per-GOOS visitation (`process`, lines 73-99) -/

/-- One `packages.Visit` pass for one GOOS (lines 87-98): for every visited
package, first record an edge for each of its imports, then — unless the
package is the root — record it as a dependency. `pkgsImports` is the
loader's package stream in visitation order, each with its imports. -/
def visitPass (internal : Bool) (root goos : String)
    (pkgsImports : List (String × List String)) (d : deps) : deps :=
  pkgsImports.foldl
    (fun d p =>
      let d := p.2.foldl (fun d imp => d.AddEdge p.1 imp) d
      if p.1 = root then d else deps.AddDep internal d p.1 goos)
    d

/-- Folding a sequence of `AddEdge` observations over the empty accumulator. -/
def foldAddEdge (obs : List (String × String)) : deps :=
  obs.foldl (fun d p => d.AddEdge p.1 p.2) emptyDeps

/-- Folding a sequence of `AddDep(pkg, goos)` calls over the empty
accumulator. -/
def foldAddDep (internal : Bool) (calls : List (String × String)) : deps :=
  calls.foldl (fun d p => deps.AddDep internal d p.1 p.2) emptyDeps

/-! ## Helper lemmas -/

theorem idxOfFrom_getD : ∀ ws : List String,
    idxOfFrom ws < ws.length → ws.getD (idxOfFrom ws) "" = "from"
  | [] => by simp [idxOfFrom]
  | w :: ws => by
    by_cases h : w = "from"
    · simp [idxOfFrom, h]
    · simp only [idxOfFrom, if_neg h, List.length_cons, List.getD_cons_succ]
      intro hlt
      exact idxOfFrom_getD ws (by omega)

theorem sortStrings_headD_min (froms : List String) (h : froms ≠ []) :
    (sortStrings froms).headD "" ∈ froms ∧
      ∀ y ∈ froms, strLt y ((sortStrings froms).headD "") = false := by
  obtain ⟨a, rest, he⟩ : ∃ a rest, sortStrings froms = a :: rest := by
    cases hs : sortStrings froms with
    | nil =>
      have hp := sortStrings_perm froms
      rw [hs] at hp
      exact absurd hp.nil_eq.symm h
    | cons a rest => exact ⟨a, rest, rfl⟩
  rw [he, List.headD_cons]
  constructor
  · have ha : a ∈ sortStrings froms := by rw [he]; exact List.mem_cons_self _ _
    exact (sortStrings_perm froms).mem_iff.mp ha
  · intro y hy
    have hy2 : y ∈ sortStrings froms := (sortStrings_perm froms).mem_iff.mpr hy
    rw [he] at hy2
    rcases List.mem_cons.mp hy2 with rfl | hy3
    · exact strLt_irrefl y
    · have hs := sortStrings_sorted froms
      rw [he] at hs
      exact List.rel_of_sorted_cons hs y hy3

/-! ## C7: flag suppression for platform-standard identities -/

/-- C7: for every platform-standard or extended-standard identity (those
`isGoPackage` accepts: no `"."`, or containing `"golang.org/x"`), the
rendered `U` and `C` marker columns are blank, whatever the accumulator's
`UsesUnsafe`/`UsesCGO` flags say about the package. -/
theorem c7_flag_suppression (d : deps) (pkg : String) (h : isGoPackage pkg = true) :
    unsafeIcon d pkg = " " ∧ cgoIcon d pkg = " " := by
  unfold unsafeIcon cgoIcon
  simp [h]

/-- C7 witness: `fmt` (platform-standard) and `golang.org/x/sys/unix`
(extended-standard), both internally flagged via an edge into `unsafe`
resp. `runtime/cgo`, still render blank marker columns. -/
theorem c7_witness :
    unsafeIcon (emptyDeps.AddEdge "fmt" "unsafe") "fmt" = " " ∧
    cgoIcon (emptyDeps.AddEdge "golang.org/x/sys/unix" "runtime/cgo")
      "golang.org/x/sys/unix" = " " :=
  ⟨(c7_flag_suppression (emptyDeps.AddEdge "fmt" "unsafe") "fmt" (by decide)).1,
   (c7_flag_suppression (emptyDeps.AddEdge "golang.org/x/sys/unix" "runtime/cgo")
      "golang.org/x/sys/unix" (by decide)).2⟩

/-! ## C6: the per-target marker field -/

/-- C6: a dependency observed under every GOOS of the run renders a blank
marker field; one observed under a strict subset renders exactly one
uppercase letter (the first letter of the GOOS name) per GOOS it was seen
under, in the run's GOOS order. -/
theorem c6_target_markers (geese : List String) (d : deps) (pkg : String) :
    ((∀ g ∈ geese, d.DepOnOS pkg g = true) → osMarkers geese d pkg = "") ∧
    ((∃ g ∈ geese, d.DepOnOS pkg g = false) →
      osMarkers geese d pkg =
        String.mk ((geese.filter (fun g => d.DepOnOS pkg g)).map
          (fun g => (g.toList.headD ' ').toUpper))) := by
  constructor
  · intro hall
    unfold osMarkers
    rw [List.filter_eq_self.mpr hall]
    simp [String.length]
  · rintro ⟨g, hg, hfalse⟩
    unfold osMarkers
    have hne : ((geese.filter (fun g => d.DepOnOS pkg g)).length) ≠ geese.length := by
      intro heq
      have := List.filter_length_eq_length.mp heq g hg
      rw [hfalse] at this
      cases this
    have hl : (String.mk ((geese.filter (fun g => d.DepOnOS pkg g)).map
        (fun g => (g.toList.headD ' ').toUpper))).length ≠ geese.length := by
      simpa [String.length] using hne
    rw [if_neg hl]

/-- C6 witness: with GOOS list `[linux, darwin]`, a dependency seen under
both renders a blank field; one seen under `linux` only renders `"L"`. -/
theorem c6_witness :
    osMarkers ["linux", "darwin"]
      (foldAddDep false [("fmt", "linux"), ("fmt", "darwin")]) "fmt" = "" ∧
    osMarkers ["linux", "darwin"]
      (foldAddDep false [("encoding/json", "linux")]) "encoding/json" = "L" := by
  constructor
  · exact (c6_target_markers ["linux", "darwin"]
      (foldAddDep false [("fmt", "linux"), ("fmt", "darwin")]) "fmt").1 (by decide)
  · exact ((c6_target_markers ["linux", "darwin"]
      (foldAddDep false [("encoding/json", "linux")]) "encoding/json").2 (by decide)).trans
      (by decide)

/-! ## C9: best-effort parsing of the previous snapshot -/

/-- C9: the previous-snapshot parse is total (`parsePreferredWhy` is a plain
function into a map, with no error outcome); a line contributes an entry only
when its whitespace-separated tokens contain `"from"` with at least one token
before it and at least one after (the entry being that neighbouring pair,
with trailing `'+'` stripped from the token after), and every line without
such a `"from"` token is skipped. -/
theorem c9_parse_best_effort (line : String) :
    (∀ dep src, parseLine line = some (dep, src) →
      ∃ i ∈ List.range (fields line).length, 0 < i ∧ i + 1 < (fields line).length ∧
        (fields line).getD i "" = "from" ∧ dep = (fields line).getD (i - 1) "" ∧
        src = trimPlus ((fields line).getD (i + 1) "")) ∧
    ((¬ ∃ i ∈ List.range (fields line).length, 0 < i ∧ i + 1 < (fields line).length ∧
        (fields line).getD i "" = "from") →
      parseLine line = none) := by
  constructor
  · intro dep src h
    simp only [parseLine] at h
    split at h
    · cases h
    · next hguard =>
      push_neg at hguard
      obtain ⟨h1, h2⟩ := hguard
      have hp := Option.some.inj h
      rw [Prod.ext_iff] at hp
      obtain ⟨he1, he2⟩ := hp
      refine ⟨idxOfFrom (fields line), List.mem_range.mpr (by omega), by omega, by omega,
        ?_, he1.symm, he2.symm⟩
      exact idxOfFrom_getD _ (by omega)
  · intro hno
    simp only [parseLine]
    split
    · rfl
    · next hguard =>
      push_neg at hguard
      obtain ⟨h1, h2⟩ := hguard
      exact absurd ⟨idxOfFrom (fields line), List.mem_range.mpr (by omega), by omega,
        by omega, idxOfFrom_getD _ (by omega)⟩ hno

theorem c9_witness :
    (∃ i ∈ List.range (fields " encoding/binary from encoding/base64+").length,
      0 < i ∧ i + 1 < (fields " encoding/binary from encoding/base64+").length ∧
      (fields " encoding/binary from encoding/base64+").getD i "" = "from" ∧
      "encoding/binary" = (fields " encoding/binary from encoding/base64+").getD (i - 1) "" ∧
      "encoding/base64" =
        trimPlus ((fields " encoding/binary from encoding/base64+").getD (i + 1) "")) ∧
    parseLine "no attribution on this line" = none :=
  ⟨(c9_parse_best_effort " encoding/binary from encoding/base64+").1
      "encoding/binary" "encoding/base64" (by decide),
   (c9_parse_best_effort "no attribution on this line").2 (by decide)⟩

/-! ## C8: edge deduplication in AddEdge -/

theorem emptyDeps_DepTo (t : String) : emptyDeps.DepTo t = [] := rfl

theorem emptyDeps_Deps : emptyDeps.Deps = [] := rfl

theorem addEdge_DepTo (d : deps) (a b t : String) :
    (d.AddEdge a b).DepTo t =
      if vendorlessPath b = t ∧ vendorlessPath a ∉ d.DepTo t then
        d.DepTo t ++ [vendorlessPath a]
      else d.DepTo t := by
  by_cases hc : stringsContains (d.DepTo (vendorlessPath b)) (vendorlessPath a)
  · have hm := (stringsContains_iff _ _).mp hc
    have hres : (d.AddEdge a b).DepTo t = d.DepTo t := by
      simp only [deps.AddEdge, hc]
      split <;> split <;> rfl
    rw [hres, if_neg]
    rintro ⟨h1, h2⟩
    exact h2 (h1 ▸ hm)
  · have hm : vendorlessPath a ∉ d.DepTo (vendorlessPath b) :=
      fun h => hc ((stringsContains_iff _ _).mpr h)
    have hres : (d.AddEdge a b).DepTo t =
        if t = vendorlessPath b then d.DepTo (vendorlessPath b) ++ [vendorlessPath a]
        else d.DepTo t := by
      simp only [deps.AddEdge, hc]
      split <;> split <;> rfl
    rw [hres]
    by_cases ht : t = vendorlessPath b
    · rw [if_pos ht, if_pos ⟨ht.symm, by rw [ht]; exact hm⟩, ht]
    · rw [if_neg ht, if_neg]
      rintro ⟨h1, _⟩
      exact ht h1.symm

theorem addEdge_mem_DepTo (d : deps) (a b t x : String) :
    x ∈ (d.AddEdge a b).DepTo t ↔
      x ∈ d.DepTo t ∨ (x = vendorlessPath a ∧ t = vendorlessPath b) := by
  rw [addEdge_DepTo]
  by_cases hcond : vendorlessPath b = t ∧ vendorlessPath a ∉ d.DepTo t
  · obtain ⟨hbt, hnm⟩ := hcond
    rw [if_pos ⟨hbt, hnm⟩]
    subst hbt
    simp [List.mem_append]
  · rw [if_neg hcond]
    constructor
    · exact Or.inl
    · rintro (h | ⟨hx, ht⟩)
      · exact h
      · subst hx; subst ht
        by_contra hnx
        exact hcond ⟨rfl, hnx⟩

theorem addEdge_DepTo_nodup (d : deps) (a b t : String) (h : (d.DepTo t).Nodup) :
    ((d.AddEdge a b).DepTo t).Nodup := by
  rw [addEdge_DepTo]
  split
  · next hcond =>
    rw [List.nodup_append]
    exact ⟨h, List.nodup_singleton _, List.disjoint_singleton.mpr hcond.2⟩
  · exact h

theorem foldl_addEdge_mem : ∀ (obs : List (String × String)) (d : deps) (t x : String),
    x ∈ (obs.foldl (fun d p => d.AddEdge p.1 p.2) d).DepTo t ↔
      x ∈ d.DepTo t ∨ ∃ p ∈ obs, vendorlessPath p.1 = x ∧ vendorlessPath p.2 = t
  | [], d, t, x => by simp
  | q :: obs, d, t, x => by
    rw [List.foldl_cons, foldl_addEdge_mem obs _ t x, addEdge_mem_DepTo,
      List.exists_mem_cons_iff]
    constructor
    · rintro ((h | ⟨hx, ht⟩) | h)
      · exact Or.inl h
      · exact Or.inr (Or.inl ⟨hx.symm, ht.symm⟩)
      · exact Or.inr (Or.inr h)
    · rintro (h | (⟨hx, ht⟩ | h))
      · exact Or.inl (Or.inl h)
      · exact Or.inl (Or.inr ⟨hx.symm, ht.symm⟩)
      · exact Or.inr h

theorem foldl_addEdge_nodup : ∀ (obs : List (String × String)) (d : deps) (t : String),
    (d.DepTo t).Nodup → ((obs.foldl (fun d p => d.AddEdge p.1 p.2) d).DepTo t).Nodup
  | [], _, _, h => h
  | q :: obs, d, t, h => by
    rw [List.foldl_cons]
    exact foldl_addEdge_nodup obs _ t (addEdge_DepTo_nodup d q.1 q.2 t h)

/-- C8: over any sequence of edge observations, in any order and from any
number of target configurations, an edge is stored at most once per
(importer, imported) pair of normalized identities: the importer appears in
the imported package's importer list exactly once if the pair was observed,
never otherwise. -/
theorem c8_edge_dedup (obs : List (String × String)) (frm tgt : String) :
    ((foldAddEdge obs).DepTo tgt).count frm =
      if ∃ p ∈ obs, vendorlessPath p.1 = frm ∧ vendorlessPath p.2 = tgt then 1 else 0 := by
  have hnd : ((foldAddEdge obs).DepTo tgt).Nodup :=
    foldl_addEdge_nodup obs emptyDeps tgt (by rw [emptyDeps_DepTo]; exact List.nodup_nil)
  have hmem := foldl_addEdge_mem obs emptyDeps tgt frm
  rw [emptyDeps_DepTo] at hmem
  simp only [List.not_mem_nil, false_or] at hmem
  split
  · next hex => exact List.count_eq_one_of_mem hnd (hmem.mpr hex)
  · next hex => exact List.count_eq_zero.mpr (fun hm => hex (hmem.mp hm))

/-! ## C10: dependency-list deduplication in AddDep -/

theorem addDep_Deps (internal : Bool) (d : deps) (pkg goos : String) :
    (deps.AddDep internal d pkg goos).Deps =
      if (!internal && isInternalPackage (vendorlessPath pkg)) = true then d.Deps
      else if vendorlessPath pkg ∈ d.Deps then d.Deps
      else d.Deps ++ [vendorlessPath pkg] := by
  by_cases hint : (!internal && isInternalPackage (vendorlessPath pkg)) = true
  · have hres : (deps.AddDep internal d pkg goos).Deps = d.Deps := by
      simp only [deps.AddDep, hint]
      rfl
    rw [hres, if_pos hint]
  · rw [if_neg hint]
    by_cases hc : stringsContains d.Deps (vendorlessPath pkg)
    · have hres : (deps.AddDep internal d pkg goos).Deps = d.Deps := by
        simp only [deps.AddDep, hint, hc]
        split
        · rfl
        · rfl
      rw [hres, if_pos ((stringsContains_iff _ _).mp hc)]
    · have hres : (deps.AddDep internal d pkg goos).Deps =
          d.Deps ++ [vendorlessPath pkg] := by
        simp only [deps.AddDep, hint, hc]
        split
        · next hx => exact Bool.noConfusion hx
        · rfl
      rw [hres, if_neg (fun h => hc ((stringsContains_iff _ _).mpr h))]

theorem addDep_Deps_nodup (internal : Bool) (d : deps) (pkg goos : String)
    (h : d.Deps.Nodup) : (deps.AddDep internal d pkg goos).Deps.Nodup := by
  rw [addDep_Deps]
  split
  · exact h
  · split
    · exact h
    · next hnm =>
      rw [List.nodup_append]
      exact ⟨h, List.nodup_singleton _, List.disjoint_singleton.mpr hnm⟩

theorem foldl_addDep_nodup : ∀ (internal : Bool) (calls : List (String × String)) (d : deps),
    d.Deps.Nodup → ((calls.foldl (fun d p => deps.AddDep internal d p.1 p.2) d).Deps).Nodup
  | _, [], _, h => h
  | internal, q :: calls, d, h => by
    rw [List.foldl_cons]
    exact foldl_addDep_nodup internal calls _ (addDep_Deps_nodup internal d q.1 q.2 h)

/-- C10: any sequence of AddDep calls (any packages, any GOOS values, with or
without `-internal`) leaves the dependency list free of duplicates, so each
dependency identity occupies at most one line of the sorted rendering. -/
theorem c10_dep_dedup (internal : Bool) (calls : List (String × String)) (p : String) :
    (foldAddDep internal calls).Deps.Nodup ∧
      (sortDeps (foldAddDep internal calls).Deps).count p ≤ 1 := by
  have hnd : (foldAddDep internal calls).Deps.Nodup :=
    foldl_addDep_nodup internal calls emptyDeps (by rw [emptyDeps_Deps]; exact List.nodup_nil)
  refine ⟨hnd, ?_⟩
  have hsd : (sortDeps (foldAddDep internal calls).Deps).Nodup :=
    ((sortDeps_perm _).nodup_iff).mpr hnd
  exact List.nodup_iff_count_le_one.mp hsd p

/-! ## C3: attribution prefers the previous snapshot's hint -/

/-- C3: when the previous-snapshot hint for a dependency is non-empty and
among the current candidate importers, the resolver chooses it — even when a
lexicographically smaller candidate is present (the first clause has no
hypothesis excluding one); otherwise it chooses the lexicographically
smallest candidate. The trailing `"+"` marker appears exactly when the
candidate list (duplicate-free by construction, c8_edge_dedup) has more than
one element. -/
theorem c3_attribution_hint (d : deps) (dep : String) (pw : List (String × String))
    (h : d.DepTo dep ≠ []) :
    (mapLookup pw dep ≠ "" → mapLookup pw dep ∈ d.DepTo dep →
      d.Why dep pw = "from " ++ mapLookup pw dep ++
        (if 1 < (d.DepTo dep).length then "+" else "")) ∧
    ((mapLookup pw dep = "" ∨ mapLookup pw dep ∉ d.DepTo dep) →
      ∃ m, m ∈ d.DepTo dep ∧ (∀ y ∈ d.DepTo dep, strLt y m = false) ∧
        d.Why dep pw = "from " ++ m ++ (if 1 < (d.DepTo dep).length then "+" else "")) := by
  have hlen : ¬ (d.DepTo dep).length = 0 := by
    simpa [List.length_eq_zero] using h
  constructor
  · intro hne hm
    simp only [deps.Why]
    rw [if_neg hlen, if_pos (And.intro hne hm)]
  · intro hno
    obtain ⟨hmem, hmin⟩ := sortStrings_headD_min (d.DepTo dep) h
    refine ⟨(sortStrings (d.DepTo dep)).headD "", hmem, hmin, ?_⟩
    have hcond : ¬ (mapLookup pw dep ≠ "" ∧ mapLookup pw dep ∈ d.DepTo dep) := by
      rcases hno with h0 | h0
      · exact fun hx => hx.1 h0
      · exact fun hx => h0 hx.2
    simp only [deps.Why]
    rw [if_neg hlen, if_neg hcond]

/-- C3 witness: candidates `{encoding/json, encoding/base64}` with hint
`encoding/json`: the hint wins although `encoding/base64` is smaller, and
`"+"` is rendered. -/
theorem c3_witness :
    deps.Why { DepTo := fun p => if p = "encoding" then ["encoding/json", "encoding/base64"] else [] }
      "encoding" [("encoding", "encoding/json")] = "from encoding/json+" :=
  ((c3_attribution_hint
      { DepTo := fun p => if p = "encoding" then ["encoding/json", "encoding/base64"] else [] }
      "encoding" [("encoding", "encoding/json")] (by decide)).1
    (by decide) (by decide)).trans (by decide)

/-! ## C5: dependencies reached only via the root's direct edge -/

/-- C5 counterexample: `process` records edges for every visited package, the
root included (the edge loop at lines 88-90 runs before the root check at
line 91), so a dependency imported only by the root has candidate set
`{root}` — not the empty set the claim states — and its rendered line carries
the attribution `from <root>` rather than no attribution text. -/
theorem c5_counterexample :
    (visitPass false "example.com/root" "linux"
        [("example.com/root", ["foo/bar"]), ("foo/bar", [])] emptyDeps).DepTo "foo/bar" =
      ["example.com/root"] ∧
    (visitPass false "example.com/root" "linux"
        [("example.com/root", ["foo/bar"]), ("foo/bar", [])] emptyDeps).Why "foo/bar" [] =
      "from example.com/root" := by
  constructor
  · decide
  · decide

/-- C5 amended: a dependency whose only recorded importer is the root (it is
reached only via the root's direct edge) has candidate set exactly `{root}`,
and its rendered attribution text is `from <root>` (no `"+"`). -/
theorem c5_amended (d : deps) (dep r : String) (pw : List (String × String))
    (h : d.DepTo dep = [r]) : d.Why dep pw = "from " ++ r := by
  have hwhy : (if mapLookup pw dep ≠ "" ∧ mapLookup pw dep ∈ [r] then mapLookup pw dep
      else (sortStrings [r]).headD "") = r := by
    split
    · next hp => exact List.mem_singleton.mp hp.2
    · rfl
  simp only [deps.Why, h]
  rw [hwhy]
  simp [String.append_empty]

/-- C5 witness: a concrete accumulator whose only importer of
`encoding/json` is the root program. -/
theorem c5_witness :
    deps.Why { DepTo := fun p => if p = "encoding/json" then ["example.com/prog"] else [] }
      "encoding/json" [] = "from example.com/prog" :=
  c5_amended
    { DepTo := fun p => if p = "encoding/json" then ["example.com/prog"] else [] }
    "encoding/json" "example.com/prog" [] (by decide)

/-! ## C1: relative order of bare and dot-containing identities -/

theorem depRank_le_one_of_dot {s : String} (h : strContains s "." = true) :
    depRank s ≤ 1 := by
  simp only [depRank, h, if_true]
  split <;> omega

theorem depRank_of_bare {s : String} (h : strContains s "." = false) : depRank s = 2 := by
  simp [depRank, h]

/-- C1 counterexample: sorting `fmt` (bare) together with
`github.com/pkg/diff` (dot-containing) puts the dot-containing identity on
the earlier line, contradicting the claim that the bare identity sorts
first. -/
theorem c1_counterexample :
    sortDeps ["fmt", "github.com/pkg/diff"] = ["github.com/pkg/diff", "fmt"] ∧
    strContains "fmt" "." = false ∧
    strContains "github.com/pkg/diff" "." = true := by
  refine ⟨by decide, by decide, by decide⟩

/-- C1 amended: in the sorted dependency list (hence in the rendered
snapshot's line order), every dot-containing identity appears before every
bare identity: whenever a line precedes a dot-containing line, the earlier
line's identity also contains a dot. -/
theorem c1_amended (l : List String) :
    (sortDeps l).Pairwise
      (fun a b => strContains b "." = true → strContains a "." = true) := by
  refine List.Pairwise.imp ?_ (sortDeps_sorted l)
  intro a b hle hb
  rcases ha : strContains a "." with _ | _
  · exfalso
    have hlt : depLess b a = true := by
      rw [depLess_iff]
      left
      have h1 := depRank_le_one_of_dot hb
      have h2 := depRank_of_bare ha
      omega
    have hle2 : depLess b a = false := hle
    rw [hle2] at hlt
    exact Bool.noConfusion hlt
  · rfl

/-! ## C2: order within the dot-containing group -/

/-- C2 counterexample: `golang.org/x/tools` sorts after the external identity
`github.com/pkg/diff`, contradicting the claim that the extended-standard
namespace sorts before all other external identities. -/
theorem c2_counterexample :
    sortDeps ["golang.org/x/tools", "github.com/pkg/diff"] =
      ["github.com/pkg/diff", "golang.org/x/tools"] ∧
    strContains "golang.org/x/tools" "golang.org/x/" = true ∧
    strContains "github.com/pkg/diff" "golang.org/x/" = false ∧
    strContains "github.com/pkg/diff" "." = true := by
  refine ⟨by decide, by decide, by decide, by decide⟩

/-- C2 amended: among dot-containing identities, every identity containing
`"golang.org/x/"` sorts after every dot-containing identity outside that
namespace (first conjunct: if an earlier dotted line is in the namespace, so
is every later dotted line); all remaining ties are broken by plain
lexicographic order of the identity string (second conjunct). -/
theorem c2_amended (l : List String) :
    ((sortDeps l).Pairwise (fun a b =>
        strContains a "." = true → strContains b "." = true →
        strContains a "golang.org/x/" = true → strContains b "golang.org/x/" = true)) ∧
    ((sortDeps l).Pairwise (fun a b =>
        strContains a "." = strContains b "." →
        strContains a "golang.org/x/" = strContains b "golang.org/x/" →
        a = b ∨ strLt a b = true)) := by
  constructor
  · refine List.Pairwise.imp ?_ (sortDeps_sorted l)
    intro a b hle ha hb hxa
    rcases hxb : strContains b "golang.org/x/" with _ | _
    · exfalso
      have hlt : depLess b a = true := by
        rw [depLess_iff]
        left
        have h1 : depRank b = 0 := by simp [depRank, hb, hxb]
        have h2 : depRank a = 1 := by simp [depRank, ha, hxa]
        omega
      have hle2 : depLess b a = false := hle
      rw [hle2] at hlt
      exact Bool.noConfusion hlt
    · rfl
  · refine List.Pairwise.imp ?_ (sortDeps_sorted l)
    intro a b hle hdot hx
    have hrank : depRank b = depRank a := by
      simp only [depRank, hdot, hx]
    have hle2 : depLess b a = false := hle
    have hslt : strLt b a = false := by
      rcases hs : strLt b a with _ | _
      · rfl
      · exfalso
        have : depLess b a = true := by
          rw [depLess_iff]
          exact Or.inr ⟨hrank, hs⟩
        rw [hle2] at this
        exact Bool.noConfusion this
    rcases strLt_false_elim hslt with heq | hlt
    · exact Or.inl heq.symm
    · exact Or.inr hlt

/-! ## C4: rendering is deterministic, independent of insertion order -/

theorem Why_congr (d1 d2 : deps) (pkg : String) (pw : List (String × String))
    (h : List.Perm (d1.DepTo pkg) (d2.DepTo pkg)) :
    d1.Why pkg pw = d2.Why pkg pw := by
  simp only [deps.Why]
  rw [sortStrings_congr h, h.length_eq]
  simp only [h.mem_iff]

theorem osMarkers_congr (geese : List String) (d1 d2 : deps) (pkg : String)
    (h : ∀ g, d1.DepOnOS pkg g = d2.DepOnOS pkg g) :
    osMarkers geese d1 pkg = osMarkers geese d2 pkg := by
  unfold osMarkers
  rw [List.filter_congr (fun g _ => h g)]

theorem renderLine_congr (geese : List String) (pw : List (String × String)) (d1 d2 : deps)
    (hDepTo : ∀ p, List.Perm (d1.DepTo p) (d2.DepTo p))
    (hOS : ∀ p g, d1.DepOnOS p g = d2.DepOnOS p g)
    (hU : ∀ p, d1.UsesUnsafe p = d2.UsesUnsafe p)
    (hC : ∀ p, d1.UsesCGO p = d2.UsesCGO p) (pkg : String) :
    renderLine geese pw d1 pkg = renderLine geese pw d2 pkg := by
  unfold renderLine unsafeIcon cgoIcon
  rw [Why_congr d1 d2 pkg pw (hDepTo pkg), osMarkers_congr geese d1 d2 pkg (hOS pkg),
    hU pkg, hC pkg]

/-- C4: rendering depends only on the accumulated dependency state's
contents, not on any insertion order: two accumulators whose dependency lists
and per-package importer lists agree up to permutation, and whose GOOS and
flag lookups agree pointwise, render byte-identical snapshots for the same
GOOS list, root and previous-snapshot hints. (Rendering the very same state
twice is the special case of all-reflexive hypotheses.) -/
theorem c4_render_deterministic (geese : List String) (root : String)
    (pw : List (String × String)) (d1 d2 : deps)
    (hdeps : List.Perm d1.Deps d2.Deps)
    (hDepTo : ∀ p, List.Perm (d1.DepTo p) (d2.DepTo p))
    (hOS : ∀ p g, d1.DepOnOS p g = d2.DepOnOS p g)
    (hU : ∀ p, d1.UsesUnsafe p = d2.UsesUnsafe p)
    (hC : ∀ p, d1.UsesCGO p = d2.UsesCGO p) :
    render geese root pw d1 = render geese root pw d2 := by
  unfold render
  rw [sortDeps_congr hdeps]
  have hfun : renderLine geese pw d1 = renderLine geese pw d2 :=
    funext (renderLine_congr geese pw d1 d2 hDepTo hOS hU hC)
  rw [hfun]

/-- C4 witness: two accumulators built in different insertion orders (the
dependency list and the importer list of `a` each permuted) render the same
bytes. -/
theorem c4_witness :
    render ["linux"] "example.com/root" []
      { Deps := ["b.io/c", "a"], DepTo := fun p => if p = "a" then ["x", "w"] else [] } =
    render ["linux"] "example.com/root" []
      { Deps := ["a", "b.io/c"], DepTo := fun p => if p = "a" then ["w", "x"] else [] } :=
  c4_render_deterministic ["linux"] "example.com/root" []
    { Deps := ["b.io/c", "a"], DepTo := fun p => if p = "a" then ["x", "w"] else [] }
    { Deps := ["a", "b.io/c"], DepTo := fun p => if p = "a" then ["w", "x"] else [] }
    (by decide)
    (fun p => by
      by_cases hp : p = "a"
      · simp only [hp, if_true, if_pos rfl]
        exact List.Perm.swap "w" "x" []
      · simp only [if_neg hp]
        exact List.Perm.refl [])
    (fun _ _ => rfl) (fun _ => rfl) (fun _ => rfl)
